import Mathlib

/-!
Shallow embedding of the repository's two probabilistic data structures:
the Bloom filter (`src/task-01.py`, class `BloomFilter` together with the
batch classifier `check_password_uniqueness`) and the HyperLogLog
cardinality estimator (`src/task-02.py`, class `HyperLogLog`).

Python integers are modelled as `Nat`/`Int`; the floating-point arithmetic
of `HyperLogLog.count` is modelled over the reals; the external 32-bit
hash (`mmh3.hash(data, seed, signed=False)`) is an abstract parameter: any
deterministic function to 32-bit unsigned integers.
-/

/-- A Python value that can reach `add` / `contains` / the batch classifier:
`None`, a string, or an integer (an integer stands for any non-string,
non-`None` value; only its string form and its not being a `str` matter to
the code under study). -/
inductive PyVal where
  | none
  | str (s : String)
  | int (n : Int)
deriving DecidableEq, Repr

/-- Python's `str(item)`: `str(None) = "None"`, a string is itself, an int
prints in decimal. -/
def pyStr : PyVal → String
  | .none => "None"
  | .str s => s
  | .int n => toString n

/-- The test the source repeats in `BloomFilter.add`, `BloomFilter.contains`
and `check_password_uniqueness`: `not item or not isinstance(item, str)`,
negated. An item is valid exactly when it is a non-empty string. -/
def isValidStr : PyVal → Bool
  | .str s => s != ""
  | _ => false

/-- The external hash primitive `mmh3.hash(data, seed, signed=False)`,
abstracted: a deterministic function of the hashed text and the seed whose
output is a 32-bit unsigned integer. (`BloomFilter` hashes the UTF-8 bytes
of the item, `HyperLogLog` hashes `str(item)`; both are injective images of
the string, so the string itself is the modelled input.) -/
structure HashFn where
  f : String → Nat → Nat
  lt : ∀ s i, f s i < 2 ^ 32

/-- A constructor argument as Python sees it: an `int`, or a value of some
other type (for which `isinstance(arg, int)` is false). -/
inductive PyParam where
  | int (n : Int)
  | nonInt
deriving DecidableEq, Repr

/-- The state of `BloomFilter`: field `size` (M), `num_hashes` (K) and the
bit array `[0] * size`, a list of ints each 0 or 1. -/
structure BloomFilter where
  size : Nat
  num_hashes : Nat
  bit_array : List Nat
deriving DecidableEq, Repr

/-- `BloomFilter.__init__`: unless both arguments are positive ints it
raises `ValueError` (modelled as `Option.none`); otherwise the instance has
the given size and hash count and an all-zero bit array of length `size`. -/
def BloomFilter.init : PyParam → PyParam → Option BloomFilter
  | .int sz, .int nh =>
      if 0 < sz ∧ 0 < nh then
        some ⟨sz.toNat, nh.toNat, List.replicate sz.toNat 0⟩
      else Option.none
  | _, _ => Option.none

/-- The bit positions touched by both `add` and `contains`: for each seed
`i` in `range(num_hashes)`, `mmh3.hash(data, i, signed=False) % size`. -/
def BloomFilter.indices (hash : HashFn) (bf : BloomFilter) (s : String) : List Nat :=
  (List.range bf.num_hashes).map fun i => hash.f s i % bf.size

/-- The body of the loop in `BloomFilter.add`: `self.bit_array[index] = 1`
for each computed index in turn. -/
def setBits (a : List Nat) (idxs : List Nat) : List Nat :=
  idxs.foldl (fun acc idx => acc.set idx 1) a

/-- `BloomFilter.add`: invalid items (empty or not a string) return at once
leaving the state unchanged; a valid item has each of its `num_hashes` bit
positions set to 1. -/
def BloomFilter.add (hash : HashFn) (bf : BloomFilter) (item : PyVal) : BloomFilter :=
  if isValidStr item then
    { bf with bit_array := setBits bf.bit_array (bf.indices hash (pyStr item)) }
  else bf

/-- `BloomFilter.contains`: invalid items give `False` unconditionally; a
valid item gives `True` exactly when every one of its `num_hashes` bit
positions holds a non-zero bit (the loop returns `False` on the first zero
bit and `True` after the loop). -/
def BloomFilter.contains (hash : HashFn) (bf : BloomFilter) (item : PyVal) : Bool :=
  if isValidStr item then
    (bf.indices hash (pyStr item)).all fun idx => bf.bit_array.getD idx 0 != 0
  else false

/-- Python dict assignment `d[k] = v` on a dict modelled as an association
list in insertion order: an existing key keeps its position and gets the
new value; a new key is appended. -/
def dictSet : List (String × String) → String → String → List (String × String)
  | [], k, v => [(k, v)]
  | (k₂, v₂) :: rest, k, v =>
      if k₂ = k then (k₂, v) :: rest else (k₂, v₂) :: dictSet rest k v

/-- The status string for an absent, empty or non-string password. -/
def statusInvalid : String := "некоректний або порожній"

/-- The status string for a password the filter reports as present. -/
def statusUsed : String := "вже використаний"

/-- The status string for a password the filter reports as absent. -/
def statusUnique : String := "унікальний"

/-- The loop body of `check_password_uniqueness`: an invalid entry is
recorded under key `str(password)` with the invalid status, a valid one
under itself (`str` of a string is itself) with the used/unique status
from `contains`. -/
def classifyStep (hash : HashFn) (bf : BloomFilter)
    (results : List (String × String)) (password : PyVal) : List (String × String) :=
  if !isValidStr password then dictSet results (pyStr password) statusInvalid
  else if bf.contains hash password then dictSet results (pyStr password) statusUsed
  else dictSet results (pyStr password) statusUnique

/-- `check_password_uniqueness(bloom_filter, new_passwords)`: one pass of
the loop body over the list, starting from the empty dict. -/
def checkPasswordUniqueness (hash : HashFn) (bf : BloomFilter)
    (new_passwords : List PyVal) : List (String × String) :=
  new_passwords.foldl (classifyStep hash bf) []

/-- The status value the loop body of `check_password_uniqueness` computes
for one password — the value it writes under the key `str(password)`. -/
def itemStatus (hash : HashFn) (bf : BloomFilter) (password : PyVal) : String :=
  if !isValidStr password then statusInvalid
  else if bf.contains hash password then statusUsed
  else statusUnique

/-- The state of `HyperLogLog`: precision `p`, register count `m = 1 << p`,
and the `m` registers (Python ints). `alpha` and `small_range_correction`,
precomputed in `__init__`, are pure functions of `m` and are defined below
as such. -/
structure HyperLogLog where
  p : Nat
  m : Nat
  registers : List Int
deriving DecidableEq, Repr

/-- The body of `HyperLogLog.__init__` for a non-negative `p`:
`m = 1 << p` registers, all zero. -/
def HyperLogLog.init (p : Nat) : HyperLogLog :=
  ⟨p, 1 <<< p, List.replicate (1 <<< p) 0⟩

/-- Constructing `HyperLogLog(p)` with an arbitrary argument. `__init__`
itself validates nothing; any int `p ≥ 0` yields an instance, a negative
int fails only incidentally (`1 << p` raises `ValueError: negative shift
count`), and a non-int fails with a `TypeError` at the shift. -/
def hllMk : PyParam → Option HyperLogLog
  | .int p => if 0 ≤ p then some (HyperLogLog.init p.toNat) else Option.none
  | .nonInt => Option.none

/-- Python's `w.bit_length()`: 0 for `w = 0`, otherwise one more than the
index of the highest set bit. -/
def bitLength (w : Nat) : Nat := if w = 0 then 0 else Nat.log2 w + 1

/-- `HyperLogLog._rho(w)`: 32 when `w == 0`, otherwise
`32 - w.bit_length() + 1` (a Python int, so computed in `Int`). -/
def HyperLogLog.rho (w : Nat) : Int :=
  if w = 0 then 32 else 32 - (bitLength w : Int) + 1

/-- The fixed seed `0xDEADBEEF` of `HyperLogLog.add`. -/
def hllSeed : Nat := 0xDEADBEEF

/-- `HyperLogLog.add(item)`: hash `str(item)` with the fixed seed (no
validation of the item), split the 32-bit hash into the low `p` bits
`j = x & (m - 1)` and the rest `w = x >> p`, and raise register `j` to
`max(registers[j], rho(w))`. (`j < m`, so the list update is in range
whenever the registers have their invariant length `m`.) -/
def HyperLogLog.add (hash : HashFn) (st : HyperLogLog) (item : PyVal) : HyperLogLog :=
  let x := hash.f (pyStr item) hllSeed
  let j := x &&& (st.m - 1)
  let w := x >>> st.p
  { st with registers := st.registers.set j (max (st.registers.getD j 0) (HyperLogLog.rho w)) }

/-- `HyperLogLog._get_alpha()`: the bias-correction constant as a function
of `m`. -/
noncomputable def HyperLogLog.get_alpha (st : HyperLogLog) : ℝ :=
  if st.m = 16 then 0.673
  else if st.m = 32 then 0.697
  else if st.m = 64 then 0.709
  else 0.7213 / (1 + 1.079 / (st.m : ℝ))

/-- The local `Z` of `HyperLogLog.count`: `sum(2.0 ** -r for r in
self.registers)`. -/
noncomputable def HyperLogLog.Z (st : HyperLogLog) : ℝ :=
  (st.registers.map fun r => (2 : ℝ) ^ (-r)).sum

/-- The local `E` of `HyperLogLog.count`: `alpha * m * m / Z`. -/
noncomputable def HyperLogLog.E (st : HyperLogLog) : ℝ :=
  st.get_alpha * st.m * st.m / st.Z

/-- `self.small_range_correction`, precomputed in `__init__` as
`5 * m / 2` (float division). -/
noncomputable def HyperLogLog.small_range_correction (st : HyperLogLog) : ℝ :=
  5 * st.m / 2

/-- The local `V` of `HyperLogLog.count`: `self.registers.count(0)`. -/
def HyperLogLog.V (st : HyperLogLog) : Nat := st.registers.count 0

open Classical in
/-- `HyperLogLog.count()`: the raw estimate `E`, replaced by the linear
counting estimate `m * ln(m / V)` exactly when `E <= small_range_correction`
and the zero-register count `V` is positive; in every other case (including
`V == 0` under the threshold) `E` is returned unmodified, and no
large-range correction exists in the code. -/
noncomputable def HyperLogLog.count (st : HyperLogLog) : ℝ :=
  if st.E ≤ st.small_range_correction then
    if 0 < st.V then (st.m : ℝ) * Real.log ((st.m : ℝ) / (st.V : ℝ))
    else st.E
  else st.E

/-- The rho value the SPEC describes (for comparison with the source's
`HyperLogLog.rho`): its words are, with `w == 0`, `rho = (32 - p) + 1`,
and otherwise `(32 - p) - bitLength(w) + 1`. -/
def specRho (p : Nat) (w : Nat) : Int :=
  if w = 0 then (32 - (p : Int)) + 1 else (32 - (p : Int)) - (bitLength w : Int) + 1

/-- A concrete instance of the abstract hash, used only to exhibit concrete
behaviours: every input hashes to 2. -/
def cHash2 : HashFn :=
  ⟨fun _ _ => 2, fun _ _ => by norm_num⟩

/-- A concrete instance of the abstract hash, used only to exhibit concrete
behaviours: every input hashes to 0. -/
def cHash0 : HashFn :=
  ⟨fun _ _ => 0, fun _ _ => by norm_num⟩

/-- A small concrete Bloom filter state: size 3, two hash seeds, bits
clear. -/
def bfEx : BloomFilter := ⟨3, 2, [0, 0, 0]⟩

/-- The filter `bfEx` after adding the literal password "None" under
`cHash0`: bit 0 is set. -/
def bfN : BloomFilter := BloomFilter.add cHash0 bfEx (PyVal.str "None")

/-! Helper lemmas about the bit array. -/

theorem setBits_nil (a : List Nat) : setBits a [] = a := rfl

theorem setBits_cons (a : List Nat) (i : Nat) (t : List Nat) :
    setBits a (i :: t) = setBits (a.set i 1) t := rfl

theorem setBits_length (idxs : List Nat) (a : List Nat) :
    (setBits a idxs).length = a.length := by
  induction idxs generalizing a with
  | nil => rfl
  | cons i t ih => rw [setBits_cons, ih (a.set i 1), List.length_set]

theorem getD_set_one_ne_zero (a : List Nat) (i j : Nat) (h : a.getD j 0 ≠ 0) :
    (a.set i 1).getD j 0 ≠ 0 := by
  rcases eq_or_ne i j with rfl | hne
  · rw [List.getD_eq_getElem?_getD, List.getElem?_set_self']
    rw [List.getD_eq_getElem?_getD] at h
    cases hget : a[i]? with
    | none => rw [hget] at h; exact absurd rfl h
    | some w => simp
  · rw [List.getD_eq_getElem?_getD, List.getElem?_set_ne hne,
      ← List.getD_eq_getElem?_getD]
    exact h

theorem setBits_preserve (idxs : List Nat) (a : List Nat) (j : Nat)
    (h : a.getD j 0 ≠ 0) : (setBits a idxs).getD j 0 ≠ 0 := by
  induction idxs generalizing a with
  | nil => exact h
  | cons i t ih => rw [setBits_cons]; exact ih _ (getD_set_one_ne_zero a i j h)

theorem setBits_mem (idxs : List Nat) (a : List Nat) (j : Nat)
    (hj : j ∈ idxs) (hlen : j < a.length) : (setBits a idxs).getD j 0 ≠ 0 := by
  induction idxs generalizing a with
  | nil => cases hj
  | cons i t ih =>
    rw [setBits_cons]
    rcases List.mem_cons.1 hj with rfl | hmem
    · apply setBits_preserve
      rw [List.getD_eq_getElem?_getD, List.getElem?_set_self hlen]
      simp
    · exact ih (a.set i 1) hmem (by rw [List.length_set]; exact hlen)

/-! Helper lemmas about `BloomFilter.add`. -/

theorem add_size (hash : HashFn) (bf : BloomFilter) (item : PyVal) :
    (BloomFilter.add hash bf item).size = bf.size := by
  unfold BloomFilter.add; split <;> rfl

theorem add_num_hashes (hash : HashFn) (bf : BloomFilter) (item : PyVal) :
    (BloomFilter.add hash bf item).num_hashes = bf.num_hashes := by
  unfold BloomFilter.add; split <;> rfl

theorem add_length (hash : HashFn) (bf : BloomFilter) (item : PyVal) :
    (BloomFilter.add hash bf item).bit_array.length = bf.bit_array.length := by
  unfold BloomFilter.add; split
  · exact setBits_length _ _
  · rfl

theorem add_bit_preserve (hash : HashFn) (bf : BloomFilter) (item : PyVal) (j : Nat)
    (h : bf.bit_array.getD j 0 ≠ 0) :
    (BloomFilter.add hash bf item).bit_array.getD j 0 ≠ 0 := by
  unfold BloomFilter.add; split
  · exact setBits_preserve _ _ _ h
  · exact h

theorem foldl_add_size (hash : HashFn) (items : List PyVal) (bf : BloomFilter) :
    (items.foldl (BloomFilter.add hash) bf).size = bf.size := by
  induction items generalizing bf with
  | nil => rfl
  | cons it t ih => rw [List.foldl_cons, ih, add_size]

theorem foldl_add_num_hashes (hash : HashFn) (items : List PyVal) (bf : BloomFilter) :
    (items.foldl (BloomFilter.add hash) bf).num_hashes = bf.num_hashes := by
  induction items generalizing bf with
  | nil => rfl
  | cons it t ih => rw [List.foldl_cons, ih, add_num_hashes]

theorem foldl_add_bit_preserve (hash : HashFn) (items : List PyVal) (bf : BloomFilter)
    (j : Nat) (h : bf.bit_array.getD j 0 ≠ 0) :
    (items.foldl (BloomFilter.add hash) bf).bit_array.getD j 0 ≠ 0 := by
  induction items generalizing bf with
  | nil => exact h
  | cons it t ih => rw [List.foldl_cons]; exact ih _ (add_bit_preserve hash bf it j h)

theorem indices_congr (hash : HashFn) (bf bf₂ : BloomFilter) (s : String)
    (h₁ : bf₂.size = bf.size) (h₂ : bf₂.num_hashes = bf.num_hashes) :
    BloomFilter.indices hash bf₂ s = BloomFilter.indices hash bf s := by
  unfold BloomFilter.indices; rw [h₁, h₂]

theorem indices_lt (hash : HashFn) (bf : BloomFilter) (s : String)
    (hsz : 0 < bf.size) : ∀ idx ∈ BloomFilter.indices hash bf s, idx < bf.size := by
  intro idx h
  unfold BloomFilter.indices at h
  obtain ⟨i, _, rfl⟩ := List.mem_map.1 h
  exact Nat.mod_lt _ hsz

/-- Claim C4: for every non-empty string item added to the filter,
`contains` returns true immediately afterward and keeps returning true
after any number of further `add` calls (no false negatives), given the
constructor-established invariant that the bit array has positive length
`size`. -/
theorem c4_no_false_negatives (hash : HashFn) (bf : BloomFilter) (x : PyVal)
    (others : List PyVal) (hsz : 0 < bf.size)
    (hlen : bf.bit_array.length = bf.size) (hx : isValidStr x = true) :
    BloomFilter.contains hash
      (others.foldl (BloomFilter.add hash) (BloomFilter.add hash bf x)) x = true := by
  set bf₁ := BloomFilter.add hash bf x with hbf₁
  set bf₂ := others.foldl (BloomFilter.add hash) bf₁ with hbf₂
  have hsz₂ : bf₂.size = bf.size := by
    rw [hbf₂, foldl_add_size, hbf₁, add_size]
  have hnh₂ : bf₂.num_hashes = bf.num_hashes := by
    rw [hbf₂, foldl_add_num_hashes, hbf₁, add_num_hashes]
  have hidx : BloomFilter.indices hash bf₂ (pyStr x) = BloomFilter.indices hash bf (pyStr x) :=
    indices_congr hash bf bf₂ (pyStr x) hsz₂ hnh₂
  have hbit : ∀ idx ∈ BloomFilter.indices hash bf (pyStr x), bf₂.bit_array.getD idx 0 ≠ 0 := by
    intro idx hmem
    have hlt : idx < bf.size := indices_lt hash bf (pyStr x) hsz idx hmem
    have h₁ : bf₁.bit_array.getD idx 0 ≠ 0 := by
      rw [hbf₁]
      unfold BloomFilter.add
      rw [if_pos hx]
      exact setBits_mem _ _ _ hmem (by rw [hlen]; exact hlt)
    rw [hbf₂]
    exact foldl_add_bit_preserve hash others bf₁ idx h₁
  unfold BloomFilter.contains
  rw [if_pos hx, hidx, List.all_eq_true]
  intro idx hmem
  simpa using hbit idx hmem

/-- Claim C4 witness: a concrete filter, item and follow-up add. -/
theorem c4_no_false_negatives_witness :
    BloomFilter.contains cHash0
      ([PyVal.str "b"].foldl (BloomFilter.add cHash0)
        (BloomFilter.add cHash0 bfEx (PyVal.str "a"))) (PyVal.str "a") = true :=
  c4_no_false_negatives cHash0 bfEx (PyVal.str "a") [PyVal.str "b"]
    (by decide) (by decide) (by decide)

/-! Helper lemmas for monotonicity of the HyperLogLog registers. -/

theorem getD_set_max_le (a : List Int) (i : Nat) (v : Int) (j : Nat) :
    a.getD j 0 ≤ (a.set i (max (a.getD i 0) v)).getD j 0 := by
  rcases eq_or_ne i j with rfl | hne
  · simp only [List.getD_eq_getElem?_getD, List.getElem?_set_self']
    cases hget : a[i]? with
    | none => simp
    | some w => simp
  · simp only [List.getD_eq_getElem?_getD, List.getElem?_set_ne hne]
    exact le_refl _

theorem hll_add_register_le (hash : HashFn) (st : HyperLogLog) (item : PyVal) (j : Nat) :
    st.registers.getD j 0 ≤ (HyperLogLog.add hash st item).registers.getD j 0 :=
  getD_set_max_le st.registers _ _ j

theorem foldl_hll_add_register_le (hash : HashFn) (items : List PyVal)
    (st : HyperLogLog) (j : Nat) :
    st.registers.getD j 0 ≤ (items.foldl (HyperLogLog.add hash) st).registers.getD j 0 := by
  induction items generalizing st with
  | nil => exact le_refl _
  | cons it t ih =>
    rw [List.foldl_cons]
    exact le_trans (hll_add_register_le hash st it j) (ih _)

/-- Claim C5: over any sequence of `add` operations, the state is monotone
at every position: a non-zero bit of the filter never returns to zero, and
no register of the estimator ever decreases. -/
theorem c5_monotonic (hash : HashFn) (bf : BloomFilter) (st : HyperLogLog)
    (bfItems hllItems : List PyVal) (j : Nat) :
    (bf.bit_array.getD j 0 ≠ 0 →
      (bfItems.foldl (BloomFilter.add hash) bf).bit_array.getD j 0 ≠ 0)
    ∧ st.registers.getD j 0 ≤ (hllItems.foldl (HyperLogLog.add hash) st).registers.getD j 0 :=
  ⟨fun h => foldl_add_bit_preserve hash bfItems bf j h,
   foldl_hll_add_register_le hash hllItems st j⟩

/-- Claim C5 witness: a concrete filter state, estimator state and item
sequences. -/
theorem c5_monotonic_witness :
    ((⟨3, 2, [1, 0, 0]⟩ : BloomFilter).bit_array.getD 0 0 ≠ 0 →
      ([PyVal.str "q"].foldl (BloomFilter.add cHash0)
        (⟨3, 2, [1, 0, 0]⟩ : BloomFilter)).bit_array.getD 0 0 ≠ 0)
    ∧ (HyperLogLog.init 1).registers.getD 0 0 ≤
        ([PyVal.str "q"].foldl (HyperLogLog.add cHash0) (HyperLogLog.init 1)).registers.getD 0 0 :=
  c5_monotonic cHash0 ⟨3, 2, [1, 0, 0]⟩ (HyperLogLog.init 1)
    [PyVal.str "q"] [PyVal.str "q"] 0

/-- Claim C9: on an item that is absent, empty, or not a string,
`BloomFilter.add` is a silent no-op leaving the state unchanged, and
`BloomFilter.contains` deterministically returns false. -/
theorem c9_invalid_noop (hash : HashFn) (bf : BloomFilter) (item : PyVal)
    (h : (∀ s, item ≠ PyVal.str s) ∨ item = PyVal.str "") :
    BloomFilter.add hash bf item = bf ∧ BloomFilter.contains hash bf item = false := by
  have hv : isValidStr item = false := by
    rcases h with h | rfl
    · cases item with
      | str s => exact absurd rfl (h s)
      | none => rfl
      | int n => rfl
    · decide
  constructor
  · unfold BloomFilter.add; rw [if_neg (by rw [hv]; exact Bool.false_ne_true)]
  · unfold BloomFilter.contains; rw [if_neg (by rw [hv]; exact Bool.false_ne_true)]

/-- Claim C9 witness: the concrete invalid item `None` on a concrete
filter. -/
theorem c9_invalid_noop_witness :
    BloomFilter.add cHash0 bfEx PyVal.none = bfEx
    ∧ BloomFilter.contains cHash0 bfEx PyVal.none = false :=
  c9_invalid_noop cHash0 bfEx PyVal.none (Or.inl fun _ hs => PyVal.noConfusion hs)

/-! Helper lemmas about `HyperLogLog.rho` and the estimator state. -/

theorem rho_pos (w : Nat) (hw : w < 2 ^ 32) : 1 ≤ HyperLogLog.rho w := by
  by_cases h : w = 0
  · rw [HyperLogLog.rho, if_pos h]; norm_num
  · unfold HyperLogLog.rho bitLength
    rw [if_neg h, if_neg h]
    have hlog : Nat.log2 w < 32 := (Nat.log2_lt h).2 hw
    push_cast
    omega

theorem rho_eq_of_pos (w : Nat) (hw : 0 < w) :
    HyperLogLog.rho w = 32 - (Nat.log2 w : Int) := by
  have h : w ≠ 0 := Nat.pos_iff_ne_zero.1 hw
  unfold HyperLogLog.rho bitLength
  rw [if_neg h, if_neg h]
  push_cast
  ring

theorem hll_init_m (p : Nat) : (HyperLogLog.init p).m = 2 ^ p := by
  rw [HyperLogLog.init, Nat.one_shiftLeft]

theorem hll_init_registers (p : Nat) :
    (HyperLogLog.init p).registers = List.replicate (2 ^ p) (0 : Int) := by
  rw [HyperLogLog.init, Nat.one_shiftLeft]

theorem getD_replicate_zero (n j : Nat) :
    (List.replicate n (0 : Int)).getD j 0 = 0 := by
  rw [List.getD_eq_getElem?_getD, List.getElem?_replicate]
  split <;> rfl

theorem getD_set_self_of_lt (a : List Int) (i : Nat) (v : Int) (h : i < a.length) :
    (a.set i v).getD i 0 = v := by
  rw [List.getD_eq_getElem?_getD, List.getElem?_set_self h]
  rfl

/-- Claim C1 counterexample: with precision `p = 2` and a hash landing on
`w = 0`, the value written to the selected register is 32, while the
spec's formula `(32 - p) + 1` gives 31: the code uses the full 32-bit
width, not `32 - p`. -/
theorem c1_rho_counterexample :
    (HyperLogLog.add cHash0 (HyperLogLog.init 2) (PyVal.str "a")).registers = [32, 0, 0, 0]
    ∧ specRho 2 0 = 31
    ∧ ¬ ((32 : Int) = 31) := by decide

/-- Claim C1 (amended): `add` raises the selected register `j = x & (m-1)`
via `max` to `rho(w)` of `w = x >> p`, where `rho(0) = 32` and, for
`w > 0`, `rho(w) = 32 - bitLength(w) + 1 = 32 - floor(log2 w)` — the width
term is the full 32-bit hash width, not `32 - p` as the spec says. -/
theorem c1_rho_width (hash : HashFn) (st : HyperLogLog) (item : PyVal)
    (w : Nat) (hw : 0 < w) :
    (HyperLogLog.add hash st item).registers =
      st.registers.set (hash.f (pyStr item) hllSeed &&& (st.m - 1))
        (max (st.registers.getD (hash.f (pyStr item) hllSeed &&& (st.m - 1)) 0)
          (HyperLogLog.rho (hash.f (pyStr item) hllSeed >>> st.p)))
    ∧ (HyperLogLog.add hash st item).p = st.p
    ∧ (HyperLogLog.add hash st item).m = st.m
    ∧ HyperLogLog.rho 0 = 32
    ∧ HyperLogLog.rho w = 32 - (Nat.log2 w : Int)
    ∧ 2 ^ Nat.log2 w ≤ w ∧ w < 2 ^ (Nat.log2 w + 1) :=
  ⟨rfl, rfl, rfl, rfl, rho_eq_of_pos w hw,
   Nat.log2_self_le (Nat.pos_iff_ne_zero.1 hw), Nat.lt_log2_self⟩

/-- Claim C1 witness: the rho characterisation applied at `w = 4`. -/
theorem c1_rho_width_witness :
    0 < 4 ∧ HyperLogLog.rho 4 = 32 - (Nat.log2 4 : Int) :=
  ⟨by decide,
   (c1_rho_width cHash0 (HyperLogLog.init 1) PyVal.none 4 (by decide)).2.2.2.2.1⟩

/-- Claim C3 counterexample: `HyperLogLog(0)` — a precision that is not a
positive integer — constructs successfully instead of raising, yielding a
usable one-register instance. -/
theorem c3_hll_counterexample :
    hllMk (PyParam.int 0) = some (HyperLogLog.init 0)
    ∧ ¬ (0 < (0 : Int))
    ∧ ¬ (hllMk (PyParam.int 0) = Option.none) := by decide

/-- Claim C3 (amended): `BloomFilter` construction raises exactly when
size or hash count is not a positive int; `HyperLogLog` construction
performs no positive-integer validation — every int `p ≥ 0` (including 0)
constructs an instance, and a negative int fails only incidentally at the
shift `1 << p`. -/
theorem c3_construction_validation (M K q : Int) :
    (BloomFilter.init (PyParam.int M) (PyParam.int K) = Option.none ↔ ¬ (0 < M ∧ 0 < K))
    ∧ (∀ a : PyParam, BloomFilter.init a PyParam.nonInt = Option.none)
    ∧ (∀ b : PyParam, BloomFilter.init PyParam.nonInt b = Option.none)
    ∧ (0 ≤ q → hllMk (PyParam.int q) = some (HyperLogLog.init q.toNat))
    ∧ (q < 0 → hllMk (PyParam.int q) = Option.none) := by
  refine ⟨?_, ?_, ?_, ?_, ?_⟩
  · simp only [BloomFilter.init]
    split_ifs with h
    · simp [h]
    · simp [h]
  · intro a; cases a <;> rfl
  · intro b; cases b <;> rfl
  · intro hq; simp only [hllMk]; rw [if_pos hq]
  · intro hq; simp only [hllMk]; rw [if_neg (not_le.2 hq)]

/-- Claim C3 witness: the validation facts applied at concrete arguments. -/
theorem c3_construction_validation_witness :
    (0 : Int) ≤ 2 ∧ hllMk (PyParam.int 2) = some (HyperLogLog.init 2) :=
  ⟨by decide, (c3_construction_validation 1 1 2).2.2.2.1 (by decide)⟩

/-- Claim C6 counterexample: adding the invalid item `None` to a fresh
estimator does change the registers — `add` hashes `str(None)` and writes
a rank, it does not reject the item. -/
theorem c6_add_counterexample :
    (HyperLogLog.add cHash0 (HyperLogLog.init 1) PyVal.none).registers = [32, 0]
    ∧ (HyperLogLog.init 1).registers = [0, 0]
    ∧ ¬ ([(32 : Int), 0] = [(0 : Int), 0]) := by decide

/-- Claim C6 (amended): `HyperLogLog.add` never rejects an item: every
item, valid or not, is processed through `str(item)` exactly like its
string form, and adding any item to a fresh estimator always changes a
register (upstream filtering lives in `load_data`, outside the
estimator). -/
theorem c6_add_never_rejects (hash : HashFn) (st : HyperLogLog) (item : PyVal) (p : Nat) :
    HyperLogLog.add hash st item = HyperLogLog.add hash st (PyVal.str (pyStr item))
    ∧ HyperLogLog.add hash (HyperLogLog.init p) item ≠ HyperLogLog.init p := by
  constructor
  · rfl
  · intro heq
    have hx : hash.f (pyStr item) hllSeed < 2 ^ 32 := hash.lt _ _
    have hlen : (HyperLogLog.init p).registers.length = 2 ^ p := by
      rw [hll_init_registers, List.length_replicate]
    have hj : hash.f (pyStr item) hllSeed &&& ((HyperLogLog.init p).m - 1) < 2 ^ p := by
      rw [hll_init_m, Nat.and_pow_two_sub_one_eq_mod]
      exact Nat.mod_lt _ (Nat.two_pow_pos p)
    have hw : hash.f (pyStr item) hllSeed >>> (HyperLogLog.init p).p < 2 ^ 32 := by
      rw [Nat.shiftRight_eq_div_pow]
      exact lt_of_le_of_lt (Nat.div_le_self _ _) hx
    have hrho : 1 ≤ HyperLogLog.rho
        (hash.f (pyStr item) hllSeed >>> (HyperLogLog.init p).p) := rho_pos _ hw
    have hre : ((HyperLogLog.init p).registers.set
        (hash.f (pyStr item) hllSeed &&& ((HyperLogLog.init p).m - 1))
        (max ((HyperLogLog.init p).registers.getD
            (hash.f (pyStr item) hllSeed &&& ((HyperLogLog.init p).m - 1)) 0)
          (HyperLogLog.rho (hash.f (pyStr item) hllSeed >>> (HyperLogLog.init p).p))))
        = (HyperLogLog.init p).registers :=
      congrArg HyperLogLog.registers heq
    have h0 : (HyperLogLog.init p).registers.getD
        (hash.f (pyStr item) hllSeed &&& ((HyperLogLog.init p).m - 1)) 0 = 0 := by
      rw [hll_init_registers]
      exact getD_replicate_zero _ _
    have h1 := congrArg (fun l => l.getD
        (hash.f (pyStr item) hllSeed &&& ((HyperLogLog.init p).m - 1)) 0) hre
    simp only at h1
    rw [getD_set_self_of_lt _ _ _ (by rw [hlen]; exact hj), h0] at h1
    have h2 : HyperLogLog.rho (hash.f (pyStr item) hllSeed >>> (HyperLogLog.init p).p)
        ≤ (0 : Int) := by
      rw [← h1]
      exact le_max_right _ _
    linarith

/-- Claim C6 witness: the amended statement applied at a concrete hash,
state, item and precision. -/
theorem c6_add_never_rejects_witness :
    HyperLogLog.add cHash0 (HyperLogLog.init 2) (PyVal.int 5) ≠ HyperLogLog.init 2 :=
  (c6_add_never_rejects cHash0 (HyperLogLog.init 2) (PyVal.int 5) 2).2

/-! Helper lemmas about the correction constant and the count formula. -/

theorem get_alpha_le (st : HyperLogLog) : HyperLogLog.get_alpha st ≤ 2.5 := by
  unfold HyperLogLog.get_alpha
  split_ifs with h₁ h₂ h₃
  · norm_num
  · norm_num
  · norm_num
  · have h₄ : (0 : ℝ) ≤ 1.079 / (st.m : ℝ) := by positivity
    have h₅ : 0.7213 / (1 + 1.079 / (st.m : ℝ)) ≤ 0.7213 :=
      div_le_self (by norm_num) (by linarith)
    linarith

theorem small_range_correction_eq (st : HyperLogLog) :
    st.small_range_correction = 2.5 * (st.m : ℝ) := by
  rw [HyperLogLog.small_range_correction]
  have h : (2.5 : ℝ) = 5 / 2 := by norm_num
  rw [h]
  ring

/-- Claim C2: `count` computes `Z` as the sum of `2^(-register)` over the
registers and the raw estimate `E = alpha * m^2 / Z`; when `E` is at most
the small-range threshold `2.5 * m` and the zero-register count `V` is
positive it returns `m * ln(m / V)`, and in every other case — `V = 0`
under the threshold, or `E` above it — it returns `E` unmodified, with no
large-range correction. -/
theorem c2_count_branches (st : HyperLogLog) :
    st.V = st.registers.count 0
    ∧ st.E = st.get_alpha * (st.m : ℝ) * (st.m : ℝ) /
        ((st.registers.map fun r => (2 : ℝ) ^ (-r)).sum)
    ∧ (st.E ≤ 2.5 * (st.m : ℝ) → 0 < st.V →
        st.count = (st.m : ℝ) * Real.log ((st.m : ℝ) / (st.V : ℝ)))
    ∧ (st.E ≤ 2.5 * (st.m : ℝ) → st.V = 0 → st.count = st.E)
    ∧ (2.5 * (st.m : ℝ) < st.E → st.count = st.E) := by
  refine ⟨rfl, rfl, ?_, ?_, ?_⟩
  · intro h₁ h₂
    rw [HyperLogLog.count, if_pos (by rw [small_range_correction_eq]; exact h₁), if_pos h₂]
  · intro h₁ h₂
    rw [HyperLogLog.count, if_pos (by rw [small_range_correction_eq]; exact h₁),
      if_neg (by rw [h₂]; exact lt_irrefl 0)]
  · intro h₁
    rw [HyperLogLog.count, if_neg (by rw [small_range_correction_eq]; exact not_le.2 h₁)]

/-- Claim C2 witness: the linear-counting branch applied to the concrete
one-register estimator. -/
theorem c2_count_branches_witness :
    HyperLogLog.count (HyperLogLog.init 0) =
      ((HyperLogLog.init 0).m : ℝ) *
        Real.log (((HyperLogLog.init 0).m : ℝ) / ((HyperLogLog.init 0).V : ℝ)) := by
  apply (c2_count_branches (HyperLogLog.init 0)).2.2.1
  · have hm : ((HyperLogLog.init 0).m : ℝ) = 1 := by rw [hll_init_m]; norm_num
    have hZ : (HyperLogLog.init 0).Z = 1 := by
      rw [HyperLogLog.Z, hll_init_registers]
      simp [List.sum_replicate]
    have hE : (HyperLogLog.init 0).E = (HyperLogLog.init 0).get_alpha := by
      rw [HyperLogLog.E, hZ, hm]
      ring
    rw [hE, hm]
    have h := get_alpha_le (HyperLogLog.init 0)
    linarith
  · decide

/-- Claim C7: a freshly constructed estimator has `m = 2^p` registers, all
zero, and `count()` on it returns exactly 0 (the linear-counting branch
fires with `V = m`, giving `m * ln(m/m) = 0`). -/
theorem c7_empty_estimator (p : Nat) :
    (HyperLogLog.init p).m = 2 ^ p
    ∧ (HyperLogLog.init p).registers = List.replicate ((HyperLogLog.init p).m) (0 : Int)
    ∧ HyperLogLog.count (HyperLogLog.init p) = 0 := by
  refine ⟨hll_init_m p, by rw [hll_init_registers, hll_init_m], ?_⟩
  have hm : ((HyperLogLog.init p).m : ℝ) = (2 : ℝ) ^ p := by
    rw [hll_init_m]
    push_cast
    ring
  have hmpos : (0 : ℝ) < (2 : ℝ) ^ p := by positivity
  have hZ : (HyperLogLog.init p).Z = (2 : ℝ) ^ p := by
    rw [HyperLogLog.Z, hll_init_registers, List.map_replicate]
    rw [neg_zero, zpow_zero, List.sum_replicate, nsmul_eq_mul, mul_one]
    push_cast
    ring
  have hV : (HyperLogLog.init p).V = 2 ^ p := by
    rw [HyperLogLog.V, hll_init_registers, List.count_replicate_self]
  have hE : (HyperLogLog.init p).E = (HyperLogLog.init p).get_alpha * (2 : ℝ) ^ p := by
    rw [HyperLogLog.E, hZ, hm, mul_div_assoc, div_self (ne_of_gt hmpos), mul_one]
  have hcond : (HyperLogLog.init p).E ≤ (HyperLogLog.init p).small_range_correction := by
    rw [hE, small_range_correction_eq, hm]
    have h₆ : (HyperLogLog.init p).get_alpha * (2 : ℝ) ^ p ≤ 2.5 * (2 : ℝ) ^ p :=
      mul_le_mul_of_nonneg_right (get_alpha_le _) (le_of_lt hmpos)
    linarith
  rw [HyperLogLog.count, if_pos hcond, if_pos (by rw [hV]; exact Nat.two_pow_pos p)]
  rw [hV, hm]
  push_cast
  rw [div_self (ne_of_gt hmpos), Real.log_one, mul_zero]

/-! Helper lemmas about the dict model and the classifier loop. -/

theorem lookup_dictSet_self (d : List (String × String)) (k v : String) :
    (dictSet d k v).lookup k = some v := by
  induction d with
  | nil => simp [dictSet]
  | cons e t ih =>
    obtain ⟨k₂, v₂⟩ := e
    by_cases h : k₂ = k
    · subst h
      simp [dictSet]
    · have hb : (k == k₂) = false := beq_eq_false_iff_ne.mpr (Ne.symm h)
      simp [dictSet, if_neg h, List.lookup_cons, hb, ih]

theorem lookup_dictSet_other (d : List (String × String)) (k v k₃ : String)
    (h : k₃ ≠ k) : (dictSet d k v).lookup k₃ = d.lookup k₃ := by
  induction d with
  | nil =>
    have hb : (k₃ == k) = false := beq_eq_false_iff_ne.mpr h
    simp [dictSet, List.lookup_cons, hb]
  | cons e t ih =>
    obtain ⟨k₂, v₂⟩ := e
    by_cases h₂ : k₂ = k
    · subst h₂
      have hb : (k₃ == k₂) = false := beq_eq_false_iff_ne.mpr h
      simp [dictSet, List.lookup_cons, hb]
    · simp [dictSet, if_neg h₂, List.lookup_cons, ih]

theorem classifyStep_eq_dictSet (hash : HashFn) (bf : BloomFilter)
    (results : List (String × String)) (password : PyVal) :
    classifyStep hash bf results password
      = dictSet results (pyStr password) (itemStatus hash bf password) := by
  unfold classifyStep itemStatus
  cases hv : isValidStr password with
  | false => simp [hv]
  | true =>
    cases hc : bf.contains hash password with
    | false => simp [hv, hc]
    | true => simp [hv, hc]

theorem foldl_classify_lookup (hash : HashFn) (bf : BloomFilter)
    (pws : List PyVal) (acc : List (String × String)) (k : String) :
    (pws.foldl (classifyStep hash bf) acc).lookup k
      = match pws.reverse.find? (fun y => pyStr y == k) with
        | some y => some (itemStatus hash bf y)
        | none => acc.lookup k := by
  induction pws generalizing acc with
  | nil => simp
  | cons y t ih =>
    rw [List.foldl_cons, ih (classifyStep hash bf acc y), List.reverse_cons,
      List.find?_append]
    cases hf : t.reverse.find? (fun z => pyStr z == k) with
    | some z => rw [Option.or_some]
    | none =>
      rw [Option.none_or, classifyStep_eq_dictSet]
      by_cases hp : pyStr y = k
      · subst hp
        simp only [List.find?_cons, List.find?_nil, beq_self_eq_true]
        exact lookup_dictSet_self acc (pyStr y) (itemStatus hash bf y)
      · have hb : (pyStr y == k) = false := beq_eq_false_iff_ne.mpr hp
        simp only [List.find?_cons, List.find?_nil, hb]
        exact lookup_dictSet_other acc (pyStr y) (itemStatus hash bf y) k (Ne.symm hp)

/-- Claim C8 counterexample: against the filter `bfN`, the input
`["None", None]` has the valid item "None" with `contains = true`, yet its
entry in the result ends as the invalid status, not the possibly-present
one: the later invalid item `None` shares the key `str(item) = "None"` and
overwrites it. -/
theorem c8_collision_counterexample :
    isValidStr (PyVal.str "None") = true
    ∧ BloomFilter.contains cHash0 bfN (PyVal.str "None") = true
    ∧ (checkPasswordUniqueness cHash0 bfN [PyVal.str "None", PyVal.none]).lookup
        (pyStr (PyVal.str "None")) = some statusInvalid
    ∧ ¬ (statusInvalid = statusUsed) := by decide

/-- Claim C8 (amended): each processed item is assigned exactly one of the
three statuses by its own condition — invalid when absent/empty/non-string,
possibly-present when `contains` is true, unique when `contains` is false —
written under its key `str(item)`; but because the result is a dict keyed
by `str(item)`, the entry finally found under an item's key is the status
of the LAST input item with that key (so an item's own status survives only
when no later item shares its key). -/
theorem c8_statuses_per_key (hash : HashFn) (bf : BloomFilter) (pws : List PyVal)
    (x : PyVal) (hx : x ∈ pws) :
    (∀ acc, classifyStep hash bf acc x = dictSet acc (pyStr x) (itemStatus hash bf x))
    ∧ (isValidStr x = false → itemStatus hash bf x = statusInvalid)
    ∧ (isValidStr x = true → bf.contains hash x = true → itemStatus hash bf x = statusUsed)
    ∧ (isValidStr x = true → bf.contains hash x = false → itemStatus hash bf x = statusUnique)
    ∧ (pws.reverse.find? (fun y => pyStr y == pyStr x)).isSome = true
    ∧ (checkPasswordUniqueness hash bf pws).lookup (pyStr x)
        = (pws.reverse.find? (fun y => pyStr y == pyStr x)).map (itemStatus hash bf) := by
  refine ⟨fun acc => classifyStep_eq_dictSet hash bf acc x, ?_, ?_, ?_, ?_, ?_⟩
  · intro hv; simp [itemStatus, hv]
  · intro hv hc; simp [itemStatus, hv, hc]
  · intro hv hc; simp [itemStatus, hv, hc]
  · rw [List.find?_isSome]
    exact ⟨x, List.mem_reverse.mpr hx, by simp⟩
  · rw [checkPasswordUniqueness, foldl_classify_lookup]
    cases hf : pws.reverse.find? (fun y => pyStr y == pyStr x) with
    | some y => rfl
    | none => rfl

/-- Claim C8 witness: the per-key characterisation applied to the concrete
colliding input. -/
theorem c8_statuses_per_key_witness :
    (checkPasswordUniqueness cHash0 bfN [PyVal.str "None", PyVal.none]).lookup
        (pyStr PyVal.none)
      = ([PyVal.str "None", PyVal.none].reverse.find?
          (fun y => pyStr y == pyStr PyVal.none)).map (itemStatus cHash0 bfN) :=
  (c8_statuses_per_key cHash0 bfN [PyVal.str "None", PyVal.none] PyVal.none
    (by decide)).2.2.2.2.2

/-- Claim C10: the classifier result is a dict keyed by `str(item)`: the
invalid item `None` lands under the string key "None", colliding with the
literal password "None" and keeping only the last-computed status; and
duplicate items collapse to one entry, so the result can have fewer
entries than the input. -/
theorem c10_dict_semantics :
    checkPasswordUniqueness cHash0 bfN [PyVal.str "None", PyVal.none]
      = [("None", statusInvalid)]
    ∧ BloomFilter.contains cHash0 bfN (PyVal.str "None") = true
    ∧ (checkPasswordUniqueness cHash0 bfN [PyVal.str "None", PyVal.none]).length
        < [PyVal.str "None", PyVal.none].length
    ∧ checkPasswordUniqueness cHash0 bfEx [PyVal.str "a", PyVal.str "a"]
        = [("a", statusUnique)]
    ∧ (checkPasswordUniqueness cHash0 bfEx [PyVal.str "a", PyVal.str "a"]).length
        < [PyVal.str "a", PyVal.str "a"].length := by decide
